import Mathlib

/-!
# Verification of the `Serializer` repository (MahanthMohan/Serializer)

Shallow embedding of `src/lib.rs` / `src/main.rs` (the two files contain the
same `Json` implementation; `lib.rs` is taken as authoritative).

The Rust code stores a flat map `HashMap<String, V>` and provides
* `Json::encode(&self, indent: usize) -> String` — pushes `"{\n"`, then for
  every entry the line `format!("{ind}\"{key}\":{ind}{value},\n")`, then `"}"`;
* `Json::decode(&mut self, src: &mut File)` — reads the file into `contents`,
  calls `process::exit(1)` when the text neither starts with `{` nor ends
  with `}`, removes every `{`, `}` and `\n`, splits on `,`, and for each
  segment: trims it, splits on `:`, takes piece 0 with all `"` removed as the
  key, piece 1 (panicking `"Value might be empty"` when absent) trimmed and
  with all `"` removed as the value text, parses it via `FromStr` (panicking
  with the error's `Display` on failure) and inserts into the map.

Strings are modelled as Lean `String`s, with the character-level operations
(`replace(pat, "")` for a one-character pattern, `split`, `trim`) embedded as
structurally recursive functions on `List Char`.  Process aborts
(`process::exit` and `panic!`) are modelled as explicit constructors of
`DecodeResult`, so that an execution of `decode` is a total value.
The `HashMap` is modelled as an association list in iteration order;
`insert` replaces the value of an existing key in place and otherwise
appends, matching the contents (key set and values) of the Rust map.
-/

namespace Serializer

/-- Rust `char::is_whitespace` (the Unicode `White_Space` property),
used by `str::trim`. -/
def isRustWhitespace (c : Char) : Bool :=
  let n := c.toNat
  n == 9 || n == 10 || n == 11 || n == 12 || n == 13 || n == 32 ||
  n == 0x85 || n == 0xA0 || n == 0x1680 ||
  (0x2000 ≤ n && n ≤ 0x200A) ||
  n == 0x2028 || n == 0x2029 || n == 0x202F || n == 0x205F || n == 0x3000

/-- Rust `str::split(sep)` for a one-character separator: always returns at
least one (possibly empty) piece; `"a,".split(',') == ["a", ""]`. -/
def splitOnChar (sep : Char) : List Char → List (List Char)
  | [] => [[]]
  | c :: cs =>
    if c = sep then [] :: splitOnChar sep cs
    else
      match splitOnChar sep cs with
      | [] => [[c]]
      | piece :: rest => (c :: piece) :: rest

/-- Rust `str::trim`: drop leading and trailing whitespace. -/
def trimChars (l : List Char) : List Char :=
  ((l.dropWhile isRustWhitespace).reverse.dropWhile isRustWhitespace).reverse

/-- Rust `str::replace(pat, "")` for a one-character pattern `pat`:
delete every occurrence of the character. -/
def removeChar (c : Char) (l : List Char) : List Char :=
  l.filter (fun x => x != c)

/-- Decimal digit value of a character, `none` when it is not an ASCII
digit (Rust `char::to_digit(10)`). -/
def digitVal (c : Char) : Option Nat :=
  if '0' ≤ c ∧ c ≤ '9' then some (c.toNat - '0'.toNat) else none

/-- Accumulate a decimal number over the characters; `none` on the first
non-digit (Rust `from_str_radix` digit loop). -/
def parseDigitsAux (acc : Nat) : List Char → Option Nat
  | [] => some acc
  | c :: cs =>
    match digitVal c with
    | none => none
    | some d => parseDigitsAux (acc * 10 + d) cs

/-- Rust `<i32 as FromStr>::from_str` (`from_str_radix(src, 10)`): optional
sign, at least one decimal digit, range check against `i32`.  The error
strings are the `Display` forms of `ParseIntError`, which is what
`panic!("{}", e)` prints. -/
def parseI32 (l : List Char) : Except String Int :=
  match l with
  | [] => .error "cannot parse integer from empty string"
  | c :: cs =>
    let signDigits : Bool × List Char :=
      if c = '+' then (false, cs)
      else if c = '-' then (true, cs) else (false, c :: cs)
    match signDigits with
    | (neg, digits) =>
      match digits with
      | [] => .error "invalid digit found in string"
      | _ :: _ =>
        match parseDigitsAux 0 digits with
        | none => .error "invalid digit found in string"
        | some n =>
          let v : Int := if neg then -(n : Int) else (n : Int)
          if v < -2147483648 then .error "number too small to fit in target type"
          else if 2147483647 < v then .error "number too large to fit in target type"
          else .ok v

/-- Rust `<i32 as Display>::fmt`, the value part of the encoded line. -/
def intDisplay (n : Int) : String := toString n

/-- The `Json<V>` struct: a map from `String` keys to values, modelled as an
association list in the map's iteration order. -/
structure Json (V : Type) where
  data : List (String × V)
deriving DecidableEq, Repr

/-- `Json::new()`: the empty map. -/
def Json.new (V : Type) : Json V := ⟨[]⟩

/-- One line of `Json::encode`:
`format!("{}\"{}\":{}{},\n", indent_space, key, indent_space, value)`. -/
def encodeEntry (showV : V → String) (indent : Nat) (p : String × V) : String :=
  let indentSpace : String := ⟨List.replicate indent ' '⟩
  indentSpace ++ "\"" ++ p.1 ++ "\":" ++ indentSpace ++ showV p.2 ++ ",\n"

/-- `Json::encode(&self, indent)`: start from `"{\n"`, push one line per
entry in iteration order, then push `"}"`.  `showV` is the `Display`
instance of `V`. -/
def Json.encode (j : Json V) (showV : V → String) (indent : Nat) : String :=
  (j.data.foldl (fun result p => result ++ encodeEntry showV indent p) "\x7b\n") ++ "\x7d"

/-- Outcome of `Json::decode`: the updated map on success, or one of the
two abort modes of the Rust code (`process::exit(code)`, `panic!(msg)`).
There is no error-value outcome: the code never returns a parse error. -/
inductive DecodeResult (V : Type) where
  | ok : List (String × V) → DecodeResult V
  | exit : Nat → DecodeResult V
  | panic : String → DecodeResult V
deriving DecidableEq, Repr

/-- `HashMap::insert(key, value)`: replace the value of an existing key
(position in iteration order kept), otherwise add the new entry. -/
def insertKV (m : List (String × V)) (k : String) (v : V) : List (String × V) :=
  if m.any (fun p => p.1 = k) then
    m.map (fun p => if p.1 = k then (k, v) else p)
  else m ++ [(k, v)]

/-- The body of the `for line in lines` loop for one segment: trim, split on
`:`, key := piece 0 with `"` removed (`get(0).unwrap()` cannot fail, `split`
returns at least one piece), value text := piece 1 (panic
`"Value might be empty"` when absent) trimmed with `"` removed, then parse
(panic with the error's `Display` on failure). -/
def kvOfLine (parseV : List Char → Except String V) (line : List Char) :
    Except String (String × V) :=
  let pieces := splitOnChar ':' (trimChars line)
  let key : String := ⟨removeChar '"' pieces.headI⟩
  match pieces.get? 1 with
  | none => .error "Value might be empty"
  | some vpiece =>
    match parseV (removeChar '"' (trimChars vpiece)) with
    | .error e => .error e
    | .ok v => .ok (key, v)

/-- The `for` loop of `Json::decode`: process the segments left to right,
inserting each parsed entry; the first panic aborts the whole call. -/
def processLines (parseV : List Char → Except String V) :
    List (List Char) → List (String × V) → Except String (List (String × V))
  | [], m => .ok m
  | line :: rest, m =>
    match kvOfLine parseV line with
    | .error e => .error e
    | .ok (k, v) => processLines parseV rest (insertKV m k v)

/-- `contents.replace("{", "").replace("}", "").replace("\n", "")`. -/
def prep (contents : String) : List Char :=
  removeChar '\n' (removeChar '}' (removeChar '{' contents.data))

/-- Rust `contents.starts_with("{")` (one-character pattern). -/
def startsWithBrace (s : String) : Bool := s.data.head? == some '{'

/-- Rust `contents.ends_with("}")` (one-character pattern). -/
def endsWithBrace (s : String) : Bool := s.data.getLast? == some '}'

/-- `Json::decode(&mut self, src)` on file contents `contents` (the
`read_to_string` I/O step is outside the model): exit the process when the
text neither starts with `{` nor ends with `}`; otherwise strip `{`, `}`,
`\n`, split on `,` and run the entry loop starting from the current map.
`parseV` is the `FromStr` instance of `V`. -/
def Json.decode (j : Json V) (parseV : List Char → Except String V)
    (contents : String) : DecodeResult V :=
  if !startsWithBrace contents && !endsWithBrace contents then .exit 1
  else
    match processLines parseV (splitOnChar ',' (prep contents)) j.data with
    | .ok m => .ok m
    | .error e => .panic e

/-- Concatenation of a list of strings, used to state the closed form of
`Json.encode`. -/
def concatAll : List String → String
  | [] => ""
  | s :: rest => s ++ concatAll rest

/-- Association-list lookup (the first entry with the given key), the
observation function for the decoded map. -/
def lookupKey (k : String) : List (String × V) → Option V
  | [] => none
  | p :: rest => if p.1 = k then some p.2 else lookupKey k rest

/-- The value of the LAST occurrence of key `k` in a list of key/value
pairs, `none` when the key never occurs. -/
def lastValue (k : String) : List (String × V) → Option V
  | [] => none
  | p :: rest =>
    match lastValue k rest with
    | some v => some v
    | none => if p.1 = k then some p.2 else none

/-- The key/value pairs successfully produced by the per-segment parser, in
segment order. -/
def okPairs (parseV : List Char → Except String V) (lines : List (List Char)) :
    List (String × V) :=
  lines.filterMap (fun l => (kvOfLine parseV l).toOption)

/-- The shape of an entry produced by the decode loop: it comes from one of
the comma-separated segments; the key is segment piece 0 with every `"`
deleted, the value is parsed from piece 1 trimmed and with every `"`
deleted. -/
def decodedEntryShape (parseV : List Char → Except String V) (s : String)
    (k : String) (v : V) : Prop :=
  ∃ line ∈ splitOnChar ',' (prep s),
    kvOfLine parseV line = .ok (k, v) ∧
    k = ⟨removeChar '"' (splitOnChar ':' (trimChars line)).headI⟩ ∧
    ∃ vp, (splitOnChar ':' (trimChars line)).get? 1 = some vp ∧
      parseV (removeChar '"' (trimChars vp)) = .ok v

/-! ## Helper lemmas -/

theorem foldl_append_concatAll (f : α → String) :
    ∀ (L : List α) (a : String),
      L.foldl (fun r p => r ++ f p) a = a ++ concatAll (L.map f)
  | [], a => by simp [concatAll]
  | x :: xs, a => by
    simp only [List.foldl_cons, List.map_cons, concatAll]
    rw [foldl_append_concatAll f xs (a ++ f x), String.append_assoc]

theorem lookup_none_of_any_false {k : String} :
    ∀ {m : List (String × V)}, m.any (fun p => p.1 = k) = false →
      lookupKey k m = none := by
  intro m
  induction m with
  | nil => intro _; rfl
  | cons p rest ih =>
    intro h
    simp only [List.any_cons, Bool.or_eq_false_iff, decide_eq_false_iff_not] at h
    simp only [lookupKey, if_neg h.1]
    exact ih (by simpa using h.2)

theorem lookup_map_replace_self {k : String} {v : V} :
    ∀ {m : List (String × V)}, m.any (fun p => p.1 = k) = true →
      lookupKey k (m.map (fun p => if p.1 = k then (k, v) else p)) = some v := by
  intro m
  induction m with
  | nil => intro h; simp at h
  | cons p rest ih =>
    intro h
    by_cases hp : p.1 = k
    · simp [lookupKey, hp]
    · simp only [List.any_cons, decide_eq_true_eq, Bool.or_eq_true] at h
      rcases h with h | h
      · exact absurd h hp
      · simp only [List.map_cons, if_neg hp, lookupKey, if_neg hp]
        exact ih h

theorem lookup_map_replace_other {k k' : String} {v : V} (hne : k' ≠ k) :
    ∀ {m : List (String × V)},
      lookupKey k' (m.map (fun p => if p.1 = k then (k, v) else p)) =
        lookupKey k' m := by
  intro m
  induction m with
  | nil => rfl
  | cons p rest ih =>
    by_cases hp : p.1 = k
    · simp only [List.map_cons, if_pos hp, lookupKey]
      rw [if_neg (fun hk => hne hk.symm), if_neg (fun hp' => hne (hp ▸ hp').symm)]
      exact ih
    · simp only [List.map_cons, if_neg hp, lookupKey]
      by_cases hp' : p.1 = k'
      · simp [hp']
      · simp only [if_neg hp']; exact ih

theorem lookup_append_single (k k' : String) (v : V) :
    ∀ m : List (String × V), lookupKey k' (m ++ [(k, v)]) =
      match lookupKey k' m with
      | some w => some w
      | none => if k = k' then some v else none
  | [] => by simp [lookupKey]
  | p :: rest => by
    by_cases hp : p.1 = k'
    · simp [lookupKey, hp]
    · simp only [List.cons_append, lookupKey, if_neg hp]
      exact lookup_append_single k k' v rest

theorem lookup_insertKV (k k' : String) (v : V) (m : List (String × V)) :
    lookupKey k' (insertKV m k v) =
      if k' = k then some v else lookupKey k' m := by
  unfold insertKV
  by_cases hany : m.any (fun p => p.1 = k) = true
  · rw [if_pos hany]
    by_cases hk : k' = k
    · subst hk; rw [if_pos rfl]; exact lookup_map_replace_self hany
    · rw [if_neg hk]; exact lookup_map_replace_other hk
  · rw [if_neg hany]
    have hnone := lookup_none_of_any_false (k := k) (m := m)
      (by simpa only [Bool.not_eq_true] using hany)
    rw [lookup_append_single]
    by_cases hk : k' = k
    · subst hk; simp [hnone]
    · have hk' : ¬k = k' := fun he => hk he.symm
      rw [if_neg hk]
      cases h : lookupKey k' m with
      | none => simp [if_neg hk']
      | some w => simp

theorem processLines_lookup (parseV : List Char → Except String V) :
    ∀ (lines : List (List Char)) (m res : List (String × V)),
      processLines parseV lines m = .ok res → ∀ k : String,
        lookupKey k res =
          match lastValue k (okPairs parseV lines) with
          | some v => some v
          | none => lookupKey k m
  | [], m, res => by
    intro h k
    simp only [processLines, Except.ok.injEq] at h
    subst h
    simp [okPairs, lastValue]
  | line :: rest, m, res => by
    intro h k
    simp only [processLines] at h
    cases hline : kvOfLine parseV line with
    | error e => rw [hline] at h; exact absurd h (by simp)
    | ok kv =>
      rw [hline] at h
      obtain ⟨k0, v0⟩ := kv
      have ih := processLines_lookup parseV rest (insertKV m k0 v0) res h k
      have hok : okPairs parseV (line :: rest) =
          (k0, v0) :: okPairs parseV rest := by
        simp [okPairs, hline, Except.toOption]
      rw [hok]
      simp only [lastValue]
      cases hlast : lastValue k (okPairs parseV rest) with
      | some v => rw [hlast] at ih; exact ih
      | none =>
        rw [hlast] at ih
        rw [ih, lookup_insertKV]
        by_cases hk : k = k0
        · subst hk; simp
        · rw [if_neg hk, if_neg (fun he => hk he.symm)]

theorem keys_insertKV_nodup {m : List (String × V)} {k : String} {v : V}
    (h : (m.map Prod.fst).Nodup) :
    ((insertKV m k v).map Prod.fst).Nodup := by
  unfold insertKV
  by_cases hany : m.any (fun p => p.1 = k) = true
  · rw [if_pos hany, List.map_map]
    have : m.map (Prod.fst ∘ fun p => if p.1 = k then (k, v) else p) =
        m.map Prod.fst := by
      apply List.map_congr_left
      intro p _
      by_cases hp : p.1 = k
      · simp [hp]
      · simp [hp]
    rw [this]; exact h
  · rw [if_neg hany, List.map_append]
    have hmem : k ∉ m.map Prod.fst := by
      intro hk
      rcases List.mem_map.mp hk with ⟨p, hp, hpk⟩
      have : m.any (fun p => p.1 = k) = true :=
        List.any_eq_true.mpr ⟨p, hp, by simp [hpk]⟩
      exact hany this
    simp [List.nodup_append, h, hmem]

theorem processLines_nodup (parseV : List Char → Except String V) :
    ∀ (lines : List (List Char)) (m res : List (String × V)),
      (m.map Prod.fst).Nodup → processLines parseV lines m = .ok res →
        (res.map Prod.fst).Nodup
  | [], m, res => by
    intro hm h
    simp only [processLines, Except.ok.injEq] at h
    subst h; exact hm
  | line :: rest, m, res => by
    intro hm h
    simp only [processLines] at h
    cases hline : kvOfLine parseV line with
    | error e => rw [hline] at h; exact absurd h (by simp)
    | ok kv =>
      rw [hline] at h
      obtain ⟨k0, v0⟩ := kv
      exact processLines_nodup parseV rest (insertKV m k0 v0) res
        (keys_insertKV_nodup hm) h

theorem decode_processLines {V : Type} {parseV : List Char → Except String V}
    {s : String} {entries : List (String × V)}
    (h : (Json.new V).decode parseV s = .ok entries) :
    processLines parseV (splitOnChar ',' (prep s)) [] = .ok entries := by
  unfold Json.decode at h
  split at h
  · exact absurd h (by simp)
  · cases hp : processLines parseV (splitOnChar ',' (prep s)) (Json.new V).data with
    | ok m => rw [hp] at h; simp only [DecodeResult.ok.injEq] at h; subst h; exact hp
    | error e => rw [hp] at h; exact absurd h (by simp)

theorem mem_insertKV {m : List (String × V)} {k k0 : String} {v v0 : V}
    (h : (k, v) ∈ insertKV m k0 v0) : (k, v) ∈ m ∨ (k = k0 ∧ v = v0) := by
  unfold insertKV at h
  split at h
  · rcases List.mem_map.mp h with ⟨p, hp, hpe⟩
    by_cases hk : p.1 = k0
    · rw [if_pos hk] at hpe
      right
      exact ⟨(Prod.mk.injEq .. ▸ hpe).1.symm, (Prod.mk.injEq .. ▸ hpe).2.symm⟩
    · rw [if_neg hk] at hpe
      left; rw [← hpe]; exact hp
  · rcases List.mem_append.mp h with h | h
    · left; exact h
    · right
      have := List.mem_singleton.mp h
      exact ⟨(Prod.mk.injEq .. ▸ this).1, (Prod.mk.injEq .. ▸ this).2⟩

theorem mem_processLines (parseV : List Char → Except String V) :
    ∀ (lines : List (List Char)) (m res : List (String × V)) (k : String)
      (v : V), processLines parseV lines m = .ok res → (k, v) ∈ res →
        (k, v) ∈ m ∨ ∃ line ∈ lines, kvOfLine parseV line = .ok (k, v)
  | [], m, res, k, v => by
    intro h hm
    simp only [processLines, Except.ok.injEq] at h
    subst h
    exact Or.inl hm
  | line :: rest, m, res, k, v => by
    intro h hm
    simp only [processLines] at h
    cases hline : kvOfLine parseV line with
    | error e => rw [hline] at h; exact absurd h (by simp)
    | ok kv =>
      rw [hline] at h
      obtain ⟨k0, v0⟩ := kv
      rcases mem_processLines parseV rest (insertKV m k0 v0) res k v h hm with
          hin | ⟨l, hl, hkv⟩
      · rcases mem_insertKV hin with hin | ⟨hk, hv⟩
        · exact Or.inl hin
        · subst hk; subst hv
          exact Or.inr ⟨line, List.mem_cons_self .., hline⟩
      · exact Or.inr ⟨l, List.mem_cons_of_mem _ hl, hkv⟩

theorem kvOfLine_shape {parseV : List Char → Except String V}
    {line : List Char} {k : String} {v : V}
    (h : kvOfLine parseV line = .ok (k, v)) :
    k = ⟨removeChar '"' (splitOnChar ':' (trimChars line)).headI⟩ ∧
    ∃ vp, (splitOnChar ':' (trimChars line)).get? 1 = some vp ∧
      parseV (removeChar '"' (trimChars vp)) = .ok v := by
  simp only [kvOfLine] at h
  cases hget : (splitOnChar ':' (trimChars line)).get? 1 with
  | none => rw [hget] at h; exact absurd h (by simp)
  | some vp =>
    rw [hget] at h
    simp only at h
    cases hparse : parseV (removeChar '"' (trimChars vp)) with
    | error e => rw [hparse] at h; exact absurd h (by simp)
    | ok v' =>
      rw [hparse] at h
      simp only [Except.ok.injEq, Prod.mk.injEq] at h
      exact ⟨h.1.symm, vp, rfl, h.2 ▸ hparse⟩

theorem not_mem_removeChar (c : Char) (l : List Char) :
    c ∉ removeChar c l := by
  intro h
  have := (List.mem_filter.mp h).2
  simp at this

/-! ## The claims -/

/-- C1: the claim says `decode` always returns a structured
`Result<Value, ParseError>` and never aborts the process on malformed
input.  The code does exactly the opposite: on the empty document it calls
`process::exit(1)`, and on a segment whose value fails to parse it
`panic!`s; there is no error-value return path at all. -/
theorem C1_decode_aborts :
    (Json.new Int).decode parseI32 "" = .exit 1 ∧
    (Json.new Int).decode parseI32 "\x7b\"a\":x\x7d" =
      .panic "invalid digit found in string" := ⟨by decide, by decide⟩

/-- C2: the claim says `decode(encode(V, compact)) == V` for losslessly
representable `V`.  In the code the round trip never succeeds: `encode`
emits a comma after every entry (including the last), so decoding the
result always meets an empty comma-segment with no `:` and panics
`"Value might be empty"` — shown here for the one-entry map `{"a": 1}` and
for the empty map, with compact `indent = 0`. -/
theorem C2_roundtrip_fails :
    (Json.new Int).decode parseI32
        ((Json.mk [("a", (1 : Int))]).encode intDisplay 0) =
      .panic "Value might be empty" ∧
    (Json.new Int).decode parseI32 ((Json.new Int).encode intDisplay 0) =
      .panic "Value might be empty" ∧
    (Json.new Int).decode parseI32
        ((Json.mk [("a", (1 : Int))]).encode intDisplay 0) ≠
      .ok [("a", (1 : Int))] := ⟨by decide, by decide, by decide⟩

/-- C3: duplicate keys are last-write-wins.  Whenever `decode` succeeds,
the resulting map has pairwise-distinct keys and every key is bound to the
value of the LAST successfully parsed occurrence among the comma-separated
segments (`lastValue` recurses into the tail first).  The witness
instantiates this at `{"a":1,"a":2}`, whose decode is `[("a", 2)]`. -/
theorem C3_last_write_wins {V : Type} (parseV : List Char → Except String V)
    (s : String) (entries : List (String × V))
    (h : (Json.new V).decode parseV s = .ok entries) :
    (entries.map Prod.fst).Nodup ∧
    ∀ k : String, lookupKey k entries =
      lastValue k (okPairs parseV (splitOnChar ',' (prep s))) := by
  have hp := decode_processLines h
  refine ⟨processLines_nodup parseV _ _ _ (by simp) hp, fun k => ?_⟩
  have := processLines_lookup parseV _ _ _ hp k
  rw [this]
  cases hlast : lastValue k (okPairs parseV (splitOnChar ',' (prep s))) with
  | some v => rfl
  | none => rfl

/-- Witness for C3 at the concrete duplicate-key document
`{"a":1,"a":2}`: decoding yields the single entry `("a", 2)`. -/
theorem C3_witness :
    (Json.new Int).decode parseI32 "\x7b\"a\":1,\"a\":2\x7d" = .ok [("a", 2)] ∧
    (([(("a" : String), (2 : Int))].map Prod.fst).Nodup ∧
      lookupKey "a" [(("a" : String), (2 : Int))] =
        lastValue "a" (okPairs parseI32
          (splitOnChar ',' (prep "\x7b\"a\":1,\"a\":2\x7d")))) :=
  ⟨by decide,
    (C3_last_write_wins parseI32 "\x7b\"a\":1,\"a\":2\x7d" [("a", 2)] (by decide)).1,
    (C3_last_write_wins parseI32 "\x7b\"a\":1,\"a\":2\x7d" [("a", 2)] (by decide)).2 "a"⟩

/-- C4: the claim says `decode("{}")` succeeds with an empty object.  The
code removes the braces, splits the empty remainder on `,` into the single
empty segment, finds no `:` in it, and panics `"Value might be empty"`. -/
theorem C4_decode_empty_object_panics :
    (Json.new Int).decode parseI32 "\x7b\x7d" = .panic "Value might be empty" ∧
    (Json.new Int).decode parseI32 "\x7b\x7d" ≠ .ok [] := ⟨by decide, by decide⟩

/-- C5: `encode` is a deterministic pure function of the stored map and the
indent option: in the embedding it is a total function that reads nothing
but `j.data` and `indent` and mutates nothing, so equal map contents and
equal options give the identical output string. -/
theorem C5_encode_pure {V : Type} (showV : V → String) (j1 j2 : Json V)
    (i1 i2 : Nat) (h1 : j1.data = j2.data) (h2 : i1 = i2) :
    j1.encode showV i1 = j2.encode showV i2 := by
  subst h2
  have hj : j1 = j2 := by cases j1; cases j2; simpa using h1
  rw [hj]

/-- Witness for C5: the golden-style instance, a one-entry map encoded
twice with `indent = 2`. -/
theorem C5_witness :
    (Json.mk [("x", (1 : Int))]).data = (Json.mk [("x", (1 : Int))]).data ∧
    (2 : Nat) = 2 ∧
    (Json.mk [("x", (1 : Int))]).encode intDisplay 2 =
      (Json.mk [("x", (1 : Int))]).encode intDisplay 2 :=
  ⟨rfl, rfl, C5_encode_pure intDisplay _ _ _ _ rfl rfl⟩

/-- C6: the claim says the empty object encodes as exactly `"{}"` with no
internal newline at any indent setting.  The code instead returns the
three-character string `"{"`, `'\n'`, `"}"` at EVERY indent setting. -/
theorem C6_encode_empty_not_compact :
    (∀ indent : Nat, (Json.new Int).encode intDisplay indent = "\x7b\n\x7d") ∧
    "\x7b\n\x7d" ≠ "\x7b\x7d" := ⟨fun _ => rfl, by decide⟩

/-- C7: the claim says `indent = 0` produces compact output with no newline
characters.  The code unconditionally pushes `"{\n"` first, so even the
smallest value tree (the empty map) encoded at `indent = 0` contains a
newline. -/
theorem C7_indent_zero_has_newlines :
    (Json.new Int).encode intDisplay 0 = "\x7b\n\x7d" ∧
    '\n' ∈ ((Json.new Int).encode intDisplay 0).data := ⟨rfl, by decide⟩

/-- C8: the leading check `!starts_with("{") && !ends_with("}")` makes
`decode` exit with code 1 EXACTLY when the input both fails to start with
`{` and fails to end with `}`; every other input proceeds to the
split-and-parse loop.  In particular the lone `"}"` passes the check (and
then panics in the loop), and `"{\"a\":1"` — a leading `{` with no closing
brace — passes and parses successfully. -/
theorem C8_brace_check :
    (∀ (V : Type) (parseV : List Char → Except String V) (j : Json V)
      (s : String),
      j.decode parseV s = .exit 1 ↔
        startsWithBrace s = false ∧ endsWithBrace s = false) ∧
    (Json.new Int).decode parseI32 "\x7d" = .panic "Value might be empty" ∧
    (Json.new Int).decode parseI32 "\x7b\"a\":1" = .ok [("a", 1)] := by
  refine ⟨fun V parseV j s => ?_, by decide, by decide⟩
  unfold Json.decode
  cases hs : startsWithBrace s <;> cases he : endsWithBrace s <;>
    simp only [hs, he, Bool.not_true, Bool.not_false, Bool.and_true,
      Bool.and_false, Bool.true_and, Bool.false_and, if_true, if_false,
      reduceIte] <;>
    cases hp : processLines parseV (splitOnChar ',' (prep s)) j.data <;>
      simp [hp]

/-- C9: for every stored map, the encoded string is `"{\n"`, then one line
per entry in iteration order, then `"}"`; every entry line `encodeEntry`
ends in `",\n"` — the final entry included, since the loop appends the
comma unconditionally. -/
theorem C9_encode_line_shape {V : Type} (showV : V → String) (j : Json V)
    (indent : Nat) :
    j.encode showV indent =
      "\x7b\n" ++ concatAll (j.data.map (encodeEntry showV indent)) ++ "\x7d" ∧
    ∀ p : String × V, ∃ t, encodeEntry showV indent p = t ++ ",\n" := by
  refine ⟨?_, fun p => ⟨_, rfl⟩⟩
  rw [Json.encode, foldl_append_concatAll]

/-- C10: every entry of a successfully decoded map comes from one
comma-separated segment; its key is segment piece 0 with every `"` deleted
(hence no stored key contains a `"` character), and its value is parsed
from segment piece 1 after trimming whitespace and deleting every `"`. -/
theorem C10_entry_shape {V : Type} (parseV : List Char → Except String V)
    (s : String) (entries : List (String × V)) (k : String) (v : V)
    (h : (Json.new V).decode parseV s = .ok entries)
    (hm : (k, v) ∈ entries) :
    '"' ∉ k.data ∧ decodedEntryShape parseV s k v := by
  have hp := decode_processLines h
  rcases mem_processLines parseV _ _ _ k v hp hm with hin | ⟨line, hl, hkv⟩
  · exact absurd hin (by simp)
  · rcases kvOfLine_shape hkv with ⟨hk, vp, hvp, hps⟩
    refine ⟨?_, line, hl, hkv, hk, vp, hvp, hps⟩
    rw [hk]
    exact not_mem_removeChar '"' _

/-- Witness for C10 at the concrete document `{"a":1}` and its single
entry `("a", 1)`. -/
theorem C10_witness :
    (Json.new Int).decode parseI32 "\x7b\"a\":1\x7d" = .ok [("a", 1)] ∧
    (("a", (1 : Int)) ∈ [(("a" : String), (1 : Int))]) ∧
    ('"' ∉ "a".data ∧ decodedEntryShape parseI32 "\x7b\"a\":1\x7d" "a" (1 : Int)) :=
  ⟨by decide, by decide,
    C10_entry_shape parseI32 "\x7b\"a\":1\x7d" [("a", 1)] "a" 1
      (by decide) (by decide)⟩

end Serializer
